import Mathlib

/-!
Verification of the raw CAN signal codec of pcan_decode.py.

The codec converts between physical (engineering-unit) signal values and the
byte buffer of a CAN frame payload.  Python floats are modelled as rationals,
Python ints as Int/Nat, bytearrays as lists of naturals (each entry a byte
value below 256), and a Python function that can raise an exception returns
an Option, none standing for the raised exception.
-/

namespace PcanDecode

/-- Signal layout metadata, from class SignalDefinition (pcan_decode.py,
lines 15-26).  Field comments repeat the source comments. -/
structure SignalDefinition where
  name : String
  start_bit : Nat
  length : Nat
  /-- 1: little endian (Intel), 0: big endian (Motorola) -/
  byte_order : Nat
  /-- the character '+' marks unsigned, the character '-' marks signed -/
  value_type : Char
  factor : ℚ
  offset : ℚ
  min_val : ℚ
  max_val : ℚ
  unit : String

/-- Message metadata, from class MessageDefinition (pcan_decode.py, lines 8-13). -/
structure MessageDefinition where
  id : Nat
  name : String
  length : Nat
  signals : List SignalDefinition

/-- The Python builtin int applied to a float: truncation toward zero.
Floats are modelled as rationals. -/
def pyInt (q : ℚ) : Int := if q < 0 then ⌈q⌉ else ⌊q⌋

/-- Bit i of a byte buffer: bit (i % 8) of byte (i / 8), and 0 past the end
of the buffer.  Bit 0 of a byte is its least-significant bit, as in the
masking arithmetic of encode_signal and decode_signal. -/
def getBit (data : List Nat) (i : Nat) : Bool :=
  (data.getD (i / 8) 0).testBit (i % 8)

/-- The while loop of encode_signal (pcan_decode.py, lines 137-156), for the
little-endian branch.  Per iteration it writes bitsInThisByte bits of
raw_value into the byte at bytePos, read-modify-write through a mask.

Python-to-Lean reading of the bit arithmetic on the (possibly negative)
unbounded integer raw_value: the Python shift raw_value >> k is a floor
division by 2 ^ k, hence Int.fdiv; the Python expression x & ((1 << b) - 1)
is the nonnegative remainder of x modulo 2 ^ b, hence Int.emod (the % of
Int); the Python expression byte & ~mask clears the bits of mask inside
byte, hence Nat.ldiff.  The bytearray update data_array[byte_pos] = ...
becomes List.set. -/
def encodeLoop (raw_value : Int) (len : Nat) (byte_pos bits_remaining bit_pos : Nat)
    (data_array : List Nat) : List Nat :=
  if bits_remaining = 0 then data_array
  else if data_array.length ≤ byte_pos then data_array
  else
    -- bits_in_this_byte = min (8 - bit_pos) bits_remaining
    -- mask             = ((1 <<< bits_in_this_byte) - 1) <<< bit_pos
    -- value_bits       = (raw_value >> (len - bits_remaining)) & ((1 << bits_in_this_byte) - 1)
    encodeLoop raw_value len (byte_pos + 1)
      (bits_remaining - min (8 - bit_pos) bits_remaining) 0
      (data_array.set byte_pos
        (Nat.ldiff (data_array.getD byte_pos 0)
            (((1 <<< min (8 - bit_pos) bits_remaining) - 1) <<< bit_pos) |||
          ((Int.fdiv raw_value (2 ^ (len - bits_remaining))) %
              (2 ^ min (8 - bit_pos) bits_remaining : Int)).toNat <<< bit_pos))
termination_by data_array.length - byte_pos
decreasing_by simp [List.length_set]; omega

/-- Mirror of encodeLoop for a nonnegative raw value, used to reason about
the loop with Nat bit arithmetic; encodeLoop_eq_encodeLoopN connects the two. -/
def encodeLoopN (r : Nat) (len : Nat) (byte_pos bits_remaining bit_pos : Nat)
    (data_array : List Nat) : List Nat :=
  if bits_remaining = 0 then data_array
  else if data_array.length ≤ byte_pos then data_array
  else
    encodeLoopN r len (byte_pos + 1)
      (bits_remaining - min (8 - bit_pos) bits_remaining) 0
      (data_array.set byte_pos
        (Nat.ldiff (data_array.getD byte_pos 0)
            (((1 <<< min (8 - bit_pos) bits_remaining) - 1) <<< bit_pos) |||
          ((r >>> (len - bits_remaining)) % 2 ^ min (8 - bit_pos) bits_remaining) <<< bit_pos))
termination_by data_array.length - byte_pos
decreasing_by simp [List.length_set]; omega

/-- encode_signal (pcan_decode.py, lines 122-160).  The Python function
mutates data_array in place and returns None; here the updated buffer is
returned.  Python float division raises ZeroDivisionError when
signal.factor is zero (line 125, before any branch on byte order); that
exception is modelled by the result none. -/
def encode_signal (signal : SignalDefinition) (value : ℚ) (data_array : List Nat) :
    Option (List Nat) :=
  if signal.factor = 0 then none
  else
    let raw_value := pyInt ((value - signal.offset) / signal.factor)
    let start_byte := signal.start_bit / 8
    let start_bit := signal.start_bit % 8
    if signal.byte_order = 1 then
      some (encodeLoop raw_value signal.length start_byte signal.length start_bit data_array)
    else
      -- BIG ENDIAN: TODO in the source; the buffer is returned unmodified
      some data_array

/-- create_message_data (pcan_decode.py, lines 162-172).  The Python dict
signal_values is modelled as an association list; List.lookup models both
the membership test and the access.  The Option layer propagates a
ZeroDivisionError raised by encode_signal. -/
def create_message_data (msg_def : MessageDefinition) (signal_values : List (String × ℚ)) :
    Option (List Nat) :=
  msg_def.signals.foldlM
    (fun data signal =>
      match signal_values.lookup signal.name with
      | some v => encode_signal signal v data
      | none => some data)
    (List.replicate (max 8 msg_def.length) 0)

/-- The while loop of decode_signal (pcan_decode.py, lines 188-203), for the
little-endian branch: it reads bitsInThisByte bits from the byte at bytePos
and accumulates them into raw_value. -/
def decodeLoop (len : Nat) (byte_pos bits_remaining bit_pos : Nat)
    (data_array : List Nat) (raw_value : Nat) : Nat :=
  if bits_remaining = 0 then raw_value
  else if data_array.length ≤ byte_pos then raw_value
  else
    -- value_bits = (data_array[byte_pos] & mask) >> bit_pos
    decodeLoop len (byte_pos + 1) (bits_remaining - min (8 - bit_pos) bits_remaining) 0 data_array
      (raw_value |||
        ((data_array.getD byte_pos 0 &&&
            (((1 <<< min (8 - bit_pos) bits_remaining) - 1) <<< bit_pos)) >>> bit_pos) <<<
          (len - bits_remaining))
termination_by data_array.length - byte_pos
decreasing_by omega

/-- decode_signal (pcan_decode.py, lines 174-211).  raw_value starts at 0 and
is only modified in the little-endian branch; the physical value is
raw_value * factor + offset. -/
def decode_signal (signal : SignalDefinition) (data_array : List Nat) : ℚ :=
  let start_byte := signal.start_bit / 8
  let start_bit := signal.start_bit % 8
  let raw_value : Nat :=
    if signal.byte_order = 1 then
      decodeLoop signal.length start_byte signal.length start_bit data_array 0
    else
      -- Big endian: not implemented in the source; raw_value remains 0
      0
  (raw_value : ℚ) * signal.factor + signal.offset

/-- The signal loop of decode_message (pcan_decode.py, lines 222-228): each
signal whose bit span fits in the received data is decoded and printed; here
the printed (name, value) pairs are collected in loop order. -/
def decode_message (msg_def : MessageDefinition) (data : List Nat) : List (String × ℚ) :=
  msg_def.signals.foldl
    (fun acc signal =>
      if signal.start_bit + signal.length ≤ data.length * 8 then
        acc ++ [(signal.name, decode_signal signal data)]
      else acc)
    []

/-! ### Buffer bit lemmas -/

theorem getBit_eq_false_of_le (data : List Nat) (i : Nat) (h : 8 * data.length ≤ i) :
    getBit data i = false := by
  unfold getBit
  rw [List.getD_eq_getElem?_getD, List.getElem?_eq_none (by omega)]
  simp [Nat.zero_testBit]

theorem getBit_at (data : List Nat) (k q : Nat) (h : q < 8) :
    getBit data (8 * k + q) = (data.getD k 0).testBit q := by
  unfold getBit
  have h1 : (8 * k + q) / 8 = k := by omega
  have h2 : (8 * k + q) % 8 = q := by omega
  rw [h1, h2]

theorem getBit_set (data : List Nat) (k v i : Nat) :
    getBit (data.set k v) i =
      if i / 8 = k ∧ k < data.length then v.testBit (i % 8) else getBit data i := by
  unfold getBit
  rcases eq_or_ne (i / 8) k with hk | hk
  · subst hk
    by_cases hlen : i / 8 < data.length
    · rw [List.getD_eq_getElem?_getD, List.getElem?_set_self hlen]
      simp [hlen]
    · rw [List.set_eq_of_length_le (by omega)]
      simp [hlen]
  · rw [List.getD_eq_getElem?_getD, List.getElem?_set_ne (Ne.symm hk),
      ← List.getD_eq_getElem?_getD]
    simp [hk]

/-- Read-modify-write of one byte: writing v (v < 2 ^ b) through the mask
((1 <<< b) - 1) <<< p replaces exactly the bits p, ..., p + b - 1 of the byte
with the bits of v and keeps every other bit. -/
theorem testBit_writeByte (byte v b p j : Nat) (hv : v < 2 ^ b) :
    (Nat.ldiff byte (((1 <<< b) - 1) <<< p) ||| v <<< p).testBit j =
      if p ≤ j ∧ j < p + b then v.testBit (j - p) else byte.testBit j := by
  rw [Nat.testBit_lor, Nat.testBit_ldiff, Nat.testBit_shiftLeft, Nat.testBit_shiftLeft,
    Nat.shiftLeft_eq 1 b, one_mul, Nat.testBit_two_pow_sub_one]
  by_cases h1 : p ≤ j
  · by_cases h2 : j < p + b
    · have h3 : j - p < b := by omega
      simp [ge_iff_le, h1, h2, h3]
    · have h3 : ¬ j - p < b := by omega
      have h4 : v.testBit (j - p) = false :=
        Nat.testBit_lt_two_pow (lt_of_lt_of_le hv (Nat.pow_le_pow_right (by norm_num) (by omega)))
      simp [ge_iff_le, h1, h2, h3, h4]
  · have h3 : ¬ (p ≤ j ∧ j < p + b) := fun h => h1 h.1
    simp [ge_iff_le, h1, h3]

/-! ### encodeLoop lemmas -/

theorem encodeLoopN_length (r len byte_pos bits_remaining bit_pos : Nat)
    (data_array : List Nat) :
    (encodeLoopN r len byte_pos bits_remaining bit_pos data_array).length =
      data_array.length := by
  induction byte_pos, bits_remaining, bit_pos, data_array using encodeLoopN.induct r len with
  | case1 bp pos d => rw [encodeLoopN]; simp
  | case2 bp bits pos d h1 h2 => rw [encodeLoopN]; simp [h1, h2]
  | case3 bp bits pos d h1 h2 ih =>
      rw [encodeLoopN]
      simp only [if_neg h1, if_neg h2]
      rw [ih, List.length_set]

/-- Chunk extraction from a possibly negative raw value, reduced modulo
2 ^ len: the bits k, ..., k + b - 1 of raw (two's complement) agree with the
same bits of the nonnegative remainder of raw modulo 2 ^ len, as long as
k + b ≤ len. -/
theorem fdiv_emod_toNat (raw : Int) (len k b : Nat) (h : k + b ≤ len) :
    ((Int.fdiv raw (2 ^ k)) % (2 ^ b : Int)).toNat =
      ((raw % (2 ^ len : Int)).toNat >>> k) % 2 ^ b := by
  have h2k : (0 : Int) < 2 ^ k := by positivity
  have hrr0 : 0 ≤ raw % (2 ^ len : Int) := Int.emod_nonneg raw (by positivity)
  have key : Int.fdiv raw (2 ^ k) % (2 ^ b : Int) =
      (raw % (2 ^ len : Int)) / 2 ^ k % (2 ^ b : Int) := by
    rw [Int.fdiv_eq_ediv _ h2k.le]
    conv_lhs => rw [show raw = raw % 2 ^ len + (raw / 2 ^ len * 2 ^ (len - k)) * 2 ^ k by
      rw [mul_assoc, ← pow_add, show len - k + k = len by omega]
      have := Int.emod_add_ediv raw (2 ^ len)
      linarith]
    rw [Int.add_mul_ediv_right _ _ (ne_of_gt h2k)]
    rw [show raw % 2 ^ len / 2 ^ k + raw / 2 ^ len * 2 ^ (len - k) =
        raw % 2 ^ len / 2 ^ k + (raw / 2 ^ len * 2 ^ (len - k - b)) * 2 ^ b by
      rw [mul_assoc, ← pow_add, show len - k - b + b = len - k by omega]]
    rw [Int.add_mul_emod_self]
  rw [key, Nat.shiftRight_eq_div_pow]
  conv_lhs => rw [show raw % (2 ^ len : Int) = (((raw % (2 ^ len : Int)).toNat : Nat) : Int) from
    (Int.toNat_of_nonneg hrr0).symm]
  rw [show ((2 : Int) ^ k) = ((2 ^ k : Nat) : Int) by push_cast; ring,
    show ((2 : Int) ^ b) = ((2 ^ b : Nat) : Int) by push_cast; ring,
    ← Int.ofNat_ediv, ← Int.ofNat_emod, Int.toNat_natCast]

/-- The encode loop only depends on the raw value through its remainder
modulo 2 ^ len: it equals the Nat mirror loop run on that remainder. -/
theorem encodeLoop_eq_encodeLoopN (raw : Int) (len byte_pos bits_remaining bit_pos : Nat)
    (data_array : List Nat) (h : bits_remaining ≤ len) :
    encodeLoop raw len byte_pos bits_remaining bit_pos data_array =
      encodeLoopN ((raw % (2 ^ len : Int)).toNat) len byte_pos bits_remaining bit_pos
        data_array := by
  revert h
  induction byte_pos, bits_remaining, bit_pos, data_array using encodeLoop.induct raw len with
  | case1 bp pos d => intro h; rw [encodeLoop, encodeLoopN]; simp
  | case2 bp bits pos d h1 h2 => intro h; rw [encodeLoop, encodeLoopN]; simp [h1, h2]
  | case3 bp bits pos d h1 h2 ih =>
      intro h
      specialize ih (by omega)
      rw [encodeLoop, encodeLoopN]
      simp only [if_neg h1, if_neg h2]
      rw [fdiv_emod_toNat raw len (len - bits) (min (8 - pos) bits) (by omega)] at ih ⊢
      exact ih

/-- Bitwise characterisation of the encode loop: bit i of the resulting
buffer is the corresponding bit of r when i lies in the part of the bit span
that is inside the buffer, and is the old bit of the buffer otherwise. -/
theorem encodeLoopN_getBit (r len byte_pos bits_remaining bit_pos : Nat)
    (data_array : List Nat) :
    bit_pos < 8 → bits_remaining ≤ len → ∀ i,
    getBit (encodeLoopN r len byte_pos bits_remaining bit_pos data_array) i =
      if 8 * byte_pos + bit_pos ≤ i ∧ i < 8 * byte_pos + bit_pos + bits_remaining ∧
          i < 8 * data_array.length
      then r.testBit (len - bits_remaining + (i - (8 * byte_pos + bit_pos)))
      else getBit data_array i := by
  induction byte_pos, bits_remaining, bit_pos, data_array using encodeLoopN.induct r len with
  | case1 bp pos d =>
      intro h8 hbl i
      rw [encodeLoopN]
      split_ifs <;> first | rfl | (exfalso; omega)
  | case2 bp bits pos d h1 h2 =>
      intro h8 hbl i
      rw [encodeLoopN]
      split_ifs <;> first | rfl | (exfalso; omega)
  | case3 bp bits pos d h1 h2 ih =>
      intro h8 hbl i
      have hv : (r >>> (len - bits)) % 2 ^ min (8 - pos) bits < 2 ^ min (8 - pos) bits :=
        Nat.mod_lt _ (by positivity)
      rw [encodeLoopN]
      simp only [if_neg h1, if_neg h2]
      rw [ih (by omega) (by omega) i]
      simp only [List.length_set, Nat.add_zero]
      rw [getBit_set, testBit_writeByte _ _ _ _ _ hv]
      simp only [Nat.testBit_mod_two_pow, Nat.testBit_shiftRight]
      by_cases hC : 8 * bp + pos ≤ i ∧ i < 8 * bp + pos + bits ∧ i < 8 * d.length
      · rw [if_pos hC]
        by_cases hA : 8 * (bp + 1) ≤ i ∧ i < 8 * (bp + 1) + (bits - min (8 - pos) bits) ∧
            i < 8 * d.length
        · rw [if_pos hA]
          congr 1
          omega
        · rw [if_neg hA]
          have hB : i / 8 = bp ∧ bp < d.length := by omega
          rw [if_pos hB]
          have hin : pos ≤ i % 8 ∧ i % 8 < pos + min (8 - pos) bits := by omega
          rw [if_pos hin]
          have h5 : i % 8 - pos < min (8 - pos) bits := by omega
          rw [decide_eq_true h5, Bool.true_and]
          congr 1
          omega
      · rw [if_neg hC]
        by_cases hA : 8 * (bp + 1) ≤ i ∧ i < 8 * (bp + 1) + (bits - min (8 - pos) bits) ∧
            i < 8 * d.length
        · exfalso
          omega
        · rw [if_neg hA]
          by_cases hB : i / 8 = bp ∧ bp < d.length
          · rw [if_pos hB]
            rw [if_neg (by omega)]
            unfold getBit
            rw [hB.1]
          · rw [if_neg hB]

/-! ### decodeLoop lemmas -/

theorem decodeLoop_zero (len byte_pos bit_pos : Nat) (data_array : List Nat)
    (raw_value : Nat) :
    decodeLoop len byte_pos 0 bit_pos data_array raw_value = raw_value := by
  rw [decodeLoop]
  simp

theorem decodeLoop_out (len byte_pos bits_remaining bit_pos : Nat) (data_array : List Nat)
    (raw_value : Nat) (h : data_array.length ≤ byte_pos) :
    decodeLoop len byte_pos bits_remaining bit_pos data_array raw_value = raw_value := by
  rw [decodeLoop]
  simp [h]

theorem decodeLoop_step (len byte_pos bits_remaining bit_pos : Nat) (data_array : List Nat)
    (raw_value : Nat) (h1 : bits_remaining ≠ 0) (h2 : ¬ data_array.length ≤ byte_pos) :
    decodeLoop len byte_pos bits_remaining bit_pos data_array raw_value =
      decodeLoop len (byte_pos + 1) (bits_remaining - min (8 - bit_pos) bits_remaining) 0
        data_array
        (raw_value |||
          ((data_array.getD byte_pos 0 &&&
              (((1 <<< min (8 - bit_pos) bits_remaining) - 1) <<< bit_pos)) >>> bit_pos) <<<
            (len - bits_remaining)) := by
  conv_lhs => rw [decodeLoop]
  simp [h1, h2]

/-- Bitwise characterisation of the decode loop: bit j of the result is bit j
of the accumulator raw_value, or, when j lies in the source-bit window still
to be filled, the buffer bit that the loop reads for source bit j. -/
theorem decodeLoop_testBit (len byte_pos bits_remaining bit_pos : Nat)
    (data_array : List Nat) (raw_value : Nat) :
    bit_pos < 8 → bits_remaining ≤ len → ∀ j,
    (decodeLoop len byte_pos bits_remaining bit_pos data_array raw_value).testBit j =
      (raw_value.testBit j ||
        (decide (len - bits_remaining ≤ j) && decide (j < len) &&
          getBit data_array (8 * byte_pos + bit_pos + (j - (len - bits_remaining))))) := by
  induction byte_pos, bits_remaining, bit_pos, data_array, raw_value
      using decodeLoop.induct len with
  | case1 bp pos d raw =>
      intro h8 hbl j
      rw [decodeLoop_zero]
      have hX : (decide (len - 0 ≤ j) && decide (j < len) &&
          getBit d (8 * bp + pos + (j - (len - 0)))) = false := by
        by_cases hj : j < len
        · have hn : ¬ (len - 0 ≤ j) := by omega
          simp [hn]
        · simp [hj]
      rw [hX, Bool.or_false]
  | case2 bp bits pos d raw h1 h2 =>
      intro h8 hbl j
      rw [decodeLoop_out _ _ _ _ _ _ h2]
      have hX : (decide (len - bits ≤ j) && decide (j < len) &&
          getBit d (8 * bp + pos + (j - (len - bits)))) = false := by
        by_cases hj : (len - bits ≤ j) ∧ j < len
        · rw [getBit_eq_false_of_le d _ (by omega)]
          simp
        · rcases (not_and_or.mp hj) with h | h
          · simp [h]
          · simp [h]
      rw [hX, Bool.or_false]
  | case3 bp bits pos d raw h1 h2 ih =>
      intro h8 hbl j
      rw [decodeLoop_step _ _ _ _ _ _ h1 h2]
      rw [ih (by omega) (by omega) j]
      rw [show len - (bits - min (8 - pos) bits) = (len - bits) + min (8 - pos) bits by omega]
      simp only [Nat.add_zero, Nat.testBit_lor, Nat.testBit_shiftLeft, Nat.testBit_shiftRight,
        Nat.testBit_land, Nat.shiftLeft_eq 1, one_mul, Nat.testBit_two_pow_sub_one]
      rw [Bool.or_assoc]
      congr 1
      by_cases hj0 : j < len - bits
      · have e1 : ¬ (j ≥ len - bits) := by omega
        have e2 : ¬ (len - bits + min (8 - pos) bits ≤ j) := by omega
        have e3 : ¬ (len - bits ≤ j) := by omega
        simp [e1, e2, e3]
      · by_cases hj1 : j < len - bits + min (8 - pos) bits
        · have e1 : j ≥ len - bits := by omega
          have e2 : ¬ (len - bits + min (8 - pos) bits ≤ j) := by omega
          have e3 : len - bits ≤ j := by omega
          have e5a : j - (len - bits) < 8 - pos := by omega
          have e5b : j - (len - bits) < bits := by omega
          have e6 : j < len := by omega
          have hGB : getBit d (8 * bp + pos + (j - (len - bits))) =
              (d.getD bp 0).testBit (pos + (j - (len - bits))) := by
            rw [show 8 * bp + pos + (j - (len - bits)) = 8 * bp + (pos + (j - (len - bits)))
              by omega]
            exact getBit_at d bp _ (by omega)
          simp [e1, e2, e3, e5a, e5b, e6, hGB, List.getD_eq_getElem?_getD]
        · have e2 : len - bits + min (8 - pos) bits ≤ j := by omega
          have e3 : len - bits ≤ j := by omega
          by_cases hj2 : j < len
          · have f1 : ¬ (j - (len - bits) < 8 - pos) := by omega
            rw [show 8 * (bp + 1) + (j - (len - bits + min (8 - pos) bits)) =
                8 * bp + pos + (j - (len - bits)) by omega]
            simp [f1, e2, e3, hj2]
          · have f2 : ¬ (j - (len - bits) < bits) := by omega
            simp [f2, e2, hj2]

/-! ### Preservation of the byte invariant and buffer extensionality -/

theorem encodeLoopN_out (r len byte_pos bits_remaining bit_pos : Nat)
    (data_array : List Nat) (h : data_array.length ≤ byte_pos) :
    encodeLoopN r len byte_pos bits_remaining bit_pos data_array = data_array := by
  rw [encodeLoopN]
  simp [h]

theorem encodeLoopN_step (r len byte_pos bits_remaining bit_pos : Nat)
    (data_array : List Nat) (h1 : bits_remaining ≠ 0)
    (h2 : ¬ data_array.length ≤ byte_pos) :
    encodeLoopN r len byte_pos bits_remaining bit_pos data_array =
      encodeLoopN r len (byte_pos + 1) (bits_remaining - min (8 - bit_pos) bits_remaining) 0
        (data_array.set byte_pos
          (Nat.ldiff (data_array.getD byte_pos 0)
              (((1 <<< min (8 - bit_pos) bits_remaining) - 1) <<< bit_pos) |||
            ((r >>> (len - bits_remaining)) % 2 ^ min (8 - bit_pos) bits_remaining) <<<
              bit_pos)) := by
  conv_lhs => rw [encodeLoopN]
  simp [h1, h2]

theorem encodeLoopN_mem_lt (r len byte_pos bits_remaining bit_pos : Nat)
    (data_array : List Nat) :
    bit_pos < 8 → (∀ x ∈ data_array, x < 256) →
    ∀ x ∈ encodeLoopN r len byte_pos bits_remaining bit_pos data_array, x < 256 := by
  induction byte_pos, bits_remaining, bit_pos, data_array using encodeLoopN.induct r len with
  | case1 bp pos d =>
      intro h8 hd
      rw [encodeLoopN]
      simpa using hd
  | case2 bp bits pos d h1 h2 =>
      intro h8 hd
      rw [encodeLoopN_out _ _ _ _ _ _ h2]
      exact hd
  | case3 bp bits pos d h1 h2 ih =>
      intro h8 hd
      rw [encodeLoopN_step _ _ _ _ _ _ h1 h2]
      refine ih (by omega) ?_
      intro x hx
      rcases List.mem_or_eq_of_mem_set hx with hx | rfl
      · exact hd x hx
      · have hbyte : d.getD bp 0 < 2 ^ 8 := by
          by_cases hbp : bp < d.length
          · rw [List.getD_eq_getElem _ _ hbp]
            exact hd _ (List.getElem_mem hbp)
          · rw [List.getD_eq_getElem?_getD, List.getElem?_eq_none (by omega)]
            simp
        have hmask : ((1 <<< min (8 - pos) bits) - 1) <<< pos < 2 ^ 8 := by
          rw [Nat.shiftLeft_eq, Nat.shiftLeft_eq, one_mul]
          calc (2 ^ min (8 - pos) bits - 1) * 2 ^ pos
              < 2 ^ min (8 - pos) bits * 2 ^ pos := by
                have hp : (0:Nat) < 2 ^ pos := by positivity
                have hb : (0:Nat) < 2 ^ min (8 - pos) bits := by positivity
                exact Nat.mul_lt_mul_of_lt_of_le (by omega) le_rfl hp
            _ = 2 ^ (min (8 - pos) bits + pos) := (pow_add 2 _ _).symm
            _ ≤ 2 ^ 8 := Nat.pow_le_pow_right (by norm_num) (by omega)
        have hvb : ((r >>> (len - bits)) % 2 ^ min (8 - pos) bits) <<< pos < 2 ^ 8 := by
          have h1v : (r >>> (len - bits)) % 2 ^ min (8 - pos) bits < 2 ^ min (8 - pos) bits :=
            Nat.mod_lt _ (by positivity)
          calc ((r >>> (len - bits)) % 2 ^ min (8 - pos) bits) <<< pos
              < 2 ^ (min (8 - pos) bits + pos) := Nat.shiftLeft_lt h1v
            _ ≤ 2 ^ 8 := Nat.pow_le_pow_right (by norm_num) (by omega)
        have hldiff : Nat.ldiff (d.getD bp 0)
            (((1 <<< min (8 - pos) bits) - 1) <<< pos) < 2 ^ 8 :=
          Nat.bitwise_lt_two_pow hbyte hmask
        have := Nat.or_lt_two_pow hldiff hvb
        norm_num at this ⊢
        exact this

theorem list_eq_of_getBit_eq (d1 d2 : List Nat) (hl : d1.length = d2.length)
    (h1 : ∀ x ∈ d1, x < 256) (h2 : ∀ x ∈ d2, x < 256)
    (h : ∀ i, getBit d1 i = getBit d2 i) : d1 = d2 := by
  apply List.ext_getElem hl
  intro k hk1 hk2
  apply Nat.eq_of_testBit_eq
  intro j
  by_cases hj : j < 8
  · have hb := h (8 * k + j)
    rw [getBit_at _ _ _ hj, getBit_at _ _ _ hj] at hb
    rwa [List.getD_eq_getElem _ _ hk1, List.getD_eq_getElem _ _ hk2] at hb
  · have hle : (256 : Nat) ≤ 2 ^ j := by
      calc (256 : Nat) = 2 ^ 8 := by norm_num
        _ ≤ 2 ^ j := Nat.pow_le_pow_right (by norm_num) (by omega)
    rw [Nat.testBit_lt_two_pow (lt_of_lt_of_le (h1 _ (List.getElem_mem hk1)) hle),
      Nat.testBit_lt_two_pow (lt_of_lt_of_le (h2 _ (List.getElem_mem hk2)) hle)]

/-! ### pyInt and encode_signal lemmas -/

theorem pyInt_natCast (n : Nat) : pyInt (n : ℚ) = n := by
  unfold pyInt
  rw [if_neg (not_lt.mpr (by positivity)), Int.floor_natCast]

/-- Unfolding of encode_signal on the little-endian branch, with the encode
loop already reduced to its Nat mirror on the remainder of the raw value
modulo 2 ^ length. -/
theorem encode_signal_eq (signal : SignalDefinition) (value : ℚ) (data_array : List Nat)
    (h1 : signal.byte_order = 1) (hf : signal.factor ≠ 0) :
    encode_signal signal value data_array =
      some (encodeLoopN
        ((pyInt ((value - signal.offset) / signal.factor) % (2 ^ signal.length : Int)).toNat)
        signal.length (signal.start_bit / 8) signal.length (signal.start_bit % 8)
        data_array) := by
  simp only [encode_signal]
  rw [if_neg hf, if_pos h1, encodeLoop_eq_encodeLoopN _ _ _ _ _ _ le_rfl]

/-- The encode loop of encode_signal, characterised from the start bit: bit i
of the result is bit (i - start_bit) of the reduced raw value inside the part
of the span that fits the buffer, and the original buffer bit elsewhere. -/
theorem encodeLoopN_getBit_top (r len sb : Nat) (data_array : List Nat) (i : Nat) :
    getBit (encodeLoopN r len (sb / 8) len (sb % 8) data_array) i =
      if sb ≤ i ∧ i < sb + len ∧ i < 8 * data_array.length
      then r.testBit (i - sb)
      else getBit data_array i := by
  have h := encodeLoopN_getBit r len (sb / 8) len (sb % 8) data_array
    (Nat.mod_lt _ (by norm_num)) le_rfl i
  rwa [show 8 * (sb / 8) + sb % 8 = sb by omega, Nat.sub_self, Nat.zero_add] at h

theorem zero_ldiff (n : Nat) : Nat.ldiff 0 n = 0 := by
  apply Nat.eq_of_testBit_eq
  intro i
  rw [Nat.testBit_ldiff]
  simp

theorem encodeLoopN_zero (r len byte_pos bit_pos : Nat) (data_array : List Nat) :
    encodeLoopN r len byte_pos 0 bit_pos data_array = data_array := by
  rw [encodeLoopN]
  simp

/-! ### Claims -/

/-- C1.  Round-trip: for every SignalDefinition with little-endian byte
order, factor 1 and offset 0, whose bit span [start_bit, start_bit + length)
fits within an 8-byte buffer, and for every raw integer r in [0, 2 ^ length),
decoding (decode_signal) the buffer produced by encoding r (encode_signal
into a zero-filled 8-byte buffer) yields exactly r. -/
theorem c1_roundtrip (signal : SignalDefinition) (r : Nat)
    (hbo : signal.byte_order = 1) (hfa : signal.factor = 1) (hof : signal.offset = 0)
    (hspan : signal.start_bit + signal.length ≤ 64) (hr : r < 2 ^ signal.length) :
    (encode_signal signal (r : ℚ) (List.replicate 8 0)).map (decode_signal signal) =
      some ((r : ℚ)) := by
  have hf : signal.factor ≠ 0 := by rw [hfa]; norm_num
  have hraw : (pyInt (((r : ℚ) - signal.offset) / signal.factor) %
      (2 ^ signal.length : Int)).toNat = r := by
    rw [hof, hfa, sub_zero, div_one, pyInt_natCast,
      Int.emod_eq_of_lt (by positivity) (by exact_mod_cast hr), Int.toNat_natCast]
  rw [encode_signal_eq signal _ _ hbo hf, hraw, Option.map_some']
  congr 1
  have hdec : decodeLoop signal.length (signal.start_bit / 8) signal.length
      (signal.start_bit % 8)
      (encodeLoopN r signal.length (signal.start_bit / 8) signal.length
        (signal.start_bit % 8) (List.replicate 8 0)) 0 = r := by
    apply Nat.eq_of_testBit_eq
    intro j
    rw [decodeLoop_testBit _ _ _ _ _ _ (Nat.mod_lt _ (by norm_num)) le_rfl j,
      Nat.zero_testBit, Bool.false_or, Nat.sub_self,
      show 8 * (signal.start_bit / 8) + signal.start_bit % 8 = signal.start_bit by omega,
      Nat.sub_zero, decide_eq_true (Nat.zero_le j), Bool.true_and,
      encodeLoopN_getBit_top]
    by_cases hj : j < signal.length
    · rw [decide_eq_true hj, Bool.true_and,
        if_pos ⟨by omega, by omega, by rw [List.length_replicate]; omega⟩,
        Nat.add_sub_cancel_left]
    · rw [decide_eq_false hj, Bool.false_and]
      exact (Nat.testBit_lt_two_pow
        (lt_of_lt_of_le hr (Nat.pow_le_pow_right (by norm_num) (by omega)))).symm
  simp only [decode_signal]
  rw [if_pos hbo, hdec, hfa, hof, mul_one, add_zero]

/-- Witness for C1 at a concrete signal (start bit 4, 10 bits) and raw
value 700. -/
theorem c1_roundtrip_witness :
    (encode_signal ⟨"S", 4, 10, 1, '+', 1, 0, 0, 1023, ""⟩ ((700 : Nat) : ℚ)
        (List.replicate 8 0)).map
      (decode_signal ⟨"S", 4, 10, 1, '+', 1, 0, 0, 1023, ""⟩) = some (((700 : Nat) : ℚ)) :=
  c1_roundtrip ⟨"S", 4, 10, 1, '+', 1, 0, 0, 1023, ""⟩ 700 rfl rfl rfl (by norm_num)
    (by norm_num)

/-- C2.  Truncation toward zero: the raw value encode_signal computes is the
integer part of (value - offset) / factor truncated toward zero (floor for a
nonnegative quotient, minus the floor of the negation for a negative
quotient), not rounded to nearest; in particular with factor 1 and offset 0
the physical value -3.7 produces raw value -3, not -4, so an 8-bit signal at
bit 0 encodes it as the byte 253 (the low 8 bits of -3 in two's
complement). -/
theorem c2_truncation (signal : SignalDefinition) (value : ℚ) (hf : signal.factor ≠ 0) :
    (0 ≤ (value - signal.offset) / signal.factor →
      pyInt ((value - signal.offset) / signal.factor) =
        ⌊(value - signal.offset) / signal.factor⌋) ∧
    ((value - signal.offset) / signal.factor < 0 →
      pyInt ((value - signal.offset) / signal.factor) =
        -⌊-((value - signal.offset) / signal.factor)⌋) ∧
    (pyInt (-37/10 : ℚ) = -3 ∧ pyInt (-37/10 : ℚ) ≠ -4) ∧
    encode_signal ⟨"S", 0, 8, 1, '-', 1, 0, -128, 127, ""⟩ (-37/10 : ℚ)
        (List.replicate 8 0) = some (253 :: List.replicate 7 0) := by
  have hpy : pyInt (-37/10 : ℚ) = -3 := by
    unfold pyInt
    rw [if_pos (by norm_num), Int.ceil_eq_iff]
    constructor <;> norm_num
  have hpy2 : pyInt (-(37/10) : ℚ) = -3 := by
    rw [show (-(37/10) : ℚ) = -37/10 by norm_num]
    exact hpy
  refine ⟨?_, ?_, ⟨hpy, by rw [hpy]; decide⟩, ?_⟩
  · intro h
    unfold pyInt
    rw [if_neg (not_lt.mpr h)]
  · intro h
    unfold pyInt
    rw [if_pos h, Int.floor_neg, neg_neg]
  · simp only [encode_signal]
    norm_num [hpy2]
    rw [encodeLoop_eq_encodeLoopN _ _ _ _ _ _ le_rfl,
      show ((-3 : Int) % (2 ^ 8 : Int)).toNat = 253 by decide,
      encodeLoopN_step _ _ _ _ _ _ (by norm_num) (by norm_num),
      show (8 : Nat) - min (8 - 0) 8 = 0 by norm_num, encodeLoopN_zero]
    norm_num [zero_ldiff, List.replicate, Nat.shiftLeft_eq, Nat.shiftRight_eq_div_pow]

/-- C3.  Frame property of encode: for every little-endian signal whose bit
span lies within the buffer, encode_signal (which succeeds, returning some
buffer of the same length) modifies only the bits in
[start_bit, start_bit + length); every bit outside that span, including the
other bits of the bytes the span touches, is unchanged. -/
theorem c3_frame (signal : SignalDefinition) (value : ℚ) (data_array : List Nat)
    (hbo : signal.byte_order = 1) (hf : signal.factor ≠ 0)
    (hspan : signal.start_bit + signal.length ≤ 8 * data_array.length) :
    ∃ d, encode_signal signal value data_array = some d ∧
      d.length = data_array.length ∧
      ∀ i, (i < signal.start_bit ∨ signal.start_bit + signal.length ≤ i) →
        getBit d i = getBit data_array i := by
  refine ⟨_, encode_signal_eq signal value data_array hbo hf,
    encodeLoopN_length _ _ _ _ _ _, ?_⟩
  intro i hi
  rw [encodeLoopN_getBit_top, if_neg (by omega)]

/-- Witness for C3: a 4-bit signal at bit 2 inside byte 0 of a 2-byte
buffer. -/
theorem c3_frame_witness :
    ∃ d, encode_signal ⟨"S", 2, 4, 1, '+', 1, 0, 0, 15, ""⟩ 9 [255, 255] = some d ∧
      d.length = ([255, 255] : List Nat).length ∧
      ∀ i, (i < 2 ∨ 2 + 4 ≤ i) →
        getBit d i = getBit [255, 255] i :=
  c3_frame ⟨"S", 2, 4, 1, '+', 1, 0, 0, 15, ""⟩ 9 [255, 255] rfl (by norm_num) (by norm_num)

/-- C4.  BigEndian is a no-op variant: for every signal whose byte_order is
not 1 (little endian), encode_signal leaves every byte of the buffer
unchanged (whenever it completes, i.e. whenever factor is nonzero), and
decode_signal leaves raw_value at 0, so the returned physical value is the
offset (0 * factor + offset). -/
theorem c4_bigendian (signal : SignalDefinition) (value : ℚ) (data_array : List Nat)
    (h : signal.byte_order ≠ 1) :
    (signal.factor ≠ 0 → encode_signal signal value data_array = some data_array) ∧
    decode_signal signal data_array = signal.offset := by
  constructor
  · intro hf
    simp only [encode_signal]
    rw [if_neg hf, if_neg h]
  · simp only [decode_signal]
    rw [if_neg h]
    norm_num

/-- Witness for C4: a Motorola-order signal over the buffer [1, 2]. -/
theorem c4_bigendian_witness :
    encode_signal ⟨"B", 0, 8, 0, '+', 1, 5, 0, 0, ""⟩ 3 [1, 2] = some [1, 2] ∧
    decode_signal ⟨"B", 0, 8, 0, '+', 1, 5, 0, 0, ""⟩ [1, 2] = 5 :=
  ⟨(c4_bigendian ⟨"B", 0, 8, 0, '+', 1, 5, 0, 0, ""⟩ 3 [1, 2] (by norm_num)).1 (by norm_num),
    (c4_bigendian ⟨"B", 0, 8, 0, '+', 1, 5, 0, 0, ""⟩ 3 [1, 2] (by norm_num)).2⟩

/-- C5.  No sign extension on decode: decode_signal never reads the
value_type field, so its result is the same for any two values of that field
(in particular for the signed marker and the unsigned marker). -/
theorem c5_value_type_independent (signal : SignalDefinition) (data_array : List Nat)
    (vt1 vt2 : Char) :
    decode_signal { signal with value_type := vt1 } data_array =
      decode_signal { signal with value_type := vt2 } data_array := by
  cases signal
  rfl

/-- C8.  Excess high-order bits are dropped: whenever the raw integers
computed from two physical values are congruent modulo 2 ^ length (including
negative and overwide raw integers), encode_signal writes identical buffers,
and it raises no error (it returns some buffer). -/
theorem c8_mod (signal : SignalDefinition) (v1 v2 : ℚ) (data_array : List Nat)
    (hbo : signal.byte_order = 1) (hf : signal.factor ≠ 0)
    (hcong : Int.ModEq (2 ^ signal.length)
      (pyInt ((v1 - signal.offset) / signal.factor))
      (pyInt ((v2 - signal.offset) / signal.factor))) :
    encode_signal signal v1 data_array = encode_signal signal v2 data_array ∧
    ∃ d, encode_signal signal v1 data_array = some d := by
  have hc : pyInt ((v1 - signal.offset) / signal.factor) % (2 ^ signal.length : Int) =
      pyInt ((v2 - signal.offset) / signal.factor) % (2 ^ signal.length : Int) := hcong
  constructor
  · rw [encode_signal_eq signal v1 data_array hbo hf,
      encode_signal_eq signal v2 data_array hbo hf, hc]
  · exact ⟨_, encode_signal_eq signal v1 data_array hbo hf⟩

/-- Witness for C8: physical values 300 and 44 for an 8-bit signal
(300 = 44 + 256), and physical value -1 against 255. -/
theorem c8_mod_witness :
    encode_signal ⟨"S", 0, 8, 1, '+', 1, 0, 0, 255, ""⟩ 300 [0] =
      encode_signal ⟨"S", 0, 8, 1, '+', 1, 0, 0, 255, ""⟩ 44 [0] ∧
    ∃ d, encode_signal ⟨"S", 0, 8, 1, '+', 1, 0, 0, 255, ""⟩ 300 [0] = some d :=
  c8_mod ⟨"S", 0, 8, 1, '+', 1, 0, 0, 255, ""⟩ 300 44 [0] rfl (by norm_num)
    (by
      show pyInt ((300 - 0) / 1 : ℚ) % (2 ^ 8 : Int) = pyInt ((44 - 0) / 1 : ℚ) % (2 ^ 8 : Int)
      rw [show ((300 - 0) / 1 : ℚ) = ((300 : Nat) : ℚ) by norm_num,
        show ((44 - 0) / 1 : ℚ) = ((44 : Nat) : ℚ) by norm_num,
        pyInt_natCast, pyInt_natCast]
      decide)

/-- C9.  Silent truncation on encode overflow: for every little-endian
signal (its span may extend past the end of the buffer), encode_signal
completes without error on a buffer of unchanged length; it writes exactly
those bits of the span whose destination bytes lie within the buffer (each
receiving the corresponding low-order bit of the reduced raw value), and
every bit outside the span or past the buffer end is unchanged. -/
theorem c9_truncate_at_end (signal : SignalDefinition) (value : ℚ) (data_array : List Nat)
    (hbo : signal.byte_order = 1) (hf : signal.factor ≠ 0) :
    ∃ d, encode_signal signal value data_array = some d ∧
      d.length = data_array.length ∧
      (∀ i, signal.start_bit ≤ i → i < signal.start_bit + signal.length →
        i < 8 * data_array.length →
        getBit d i = ((pyInt ((value - signal.offset) / signal.factor) %
          (2 ^ signal.length : Int)).toNat).testBit (i - signal.start_bit)) ∧
      (∀ i, i < signal.start_bit ∨ signal.start_bit + signal.length ≤ i ∨
          8 * data_array.length ≤ i →
        getBit d i = getBit data_array i) := by
  refine ⟨_, encode_signal_eq signal value data_array hbo hf,
    encodeLoopN_length _ _ _ _ _ _, ?_, ?_⟩
  · intro i h1 h2 h3
    rw [encodeLoopN_getBit_top, if_pos ⟨h1, h2, h3⟩]
  · intro i hi
    rw [encodeLoopN_getBit_top, if_neg (by omega)]

/-- Witness for C9: a 16-bit signal starting at bit 4 of a 1-byte buffer
(span 4..20 truncated at bit 8). -/
theorem c9_truncate_at_end_witness :
    ∃ d, encode_signal ⟨"S", 4, 16, 1, '+', 1, 0, 0, 65535, ""⟩ 65535 [0] = some d ∧
      d.length = ([0] : List Nat).length ∧
      (∀ i, 4 ≤ i → i < 4 + 16 → i < 8 * ([0] : List Nat).length →
        getBit d i = ((pyInt ((65535 - (0 : ℚ)) / 1) % (2 ^ 16 : Int)).toNat).testBit (i - 4)) ∧
      (∀ i, i < 4 ∨ 4 + 16 ≤ i ∨ 8 * ([0] : List Nat).length ≤ i →
        getBit d i = getBit [0] i) :=
  c9_truncate_at_end ⟨"S", 4, 16, 1, '+', 1, 0, 0, 65535, ""⟩ 65535 [0] rfl (by norm_num)

/-- If one signal of the list has factor 0 and its name is present in the
value mapping, the encode fold of create_message_data propagates the
ZeroDivisionError (none), whatever the starting buffer. -/
theorem foldlM_encode_none (signal : SignalDefinition) (v : ℚ)
    (signal_values : List (String × ℚ)) (h0 : signal.factor = 0)
    (hv : signal_values.lookup signal.name = some v) :
    ∀ (l : List SignalDefinition), signal ∈ l → ∀ init : List Nat,
      (List.foldlM
        (fun data s =>
          match signal_values.lookup s.name with
          | some w => encode_signal s w data
          | none => some data)
        init l) = none := by
  have henc : ∀ (w : ℚ) (d : List Nat), encode_signal signal w d = none := by
    intro w d
    simp only [encode_signal]
    rw [if_pos h0]
  intro l
  induction l with
  | nil => intro h; exact absurd h (List.not_mem_nil _)
  | cons t ts ih =>
      intro hmem init
      rw [List.foldlM_cons]
      rcases List.mem_cons.mp hmem with rfl | hmem'
      · simp [hv, henc]
      · cases hcase : signal_values.lookup t.name with
        | none =>
            simp only [hcase]
            simpa using ih hmem' init
        | some w =>
            cases hencoded : encode_signal t w init with
            | none => simp [hcase, hencoded]
            | some d2 =>
                simp only [hcase, hencoded]
                simpa using ih hmem' d2

/-- C10.  Encode is not total in factor: for a signal with factor 0 whose
name is present in the value mapping, encode_signal raises
ZeroDivisionError (modelled by none), and so does create_message_data for
any message containing that signal. -/
theorem c10_zero_factor (signal : SignalDefinition) (v : ℚ) (data_array : List Nat)
    (msg_def : MessageDefinition) (signal_values : List (String × ℚ))
    (h0 : signal.factor = 0) (hv : signal_values.lookup signal.name = some v)
    (hmem : signal ∈ msg_def.signals) :
    encode_signal signal v data_array = none ∧
    create_message_data msg_def signal_values = none := by
  constructor
  · simp only [encode_signal]
    rw [if_pos h0]
  · unfold create_message_data
    exact foldlM_encode_none signal v signal_values h0 hv msg_def.signals hmem _

/-- Witness for C10: a single-signal message with factor 0 and a mapping
holding its name. -/
theorem c10_zero_factor_witness :
    encode_signal ⟨"Z", 0, 8, 1, '+', 0, 0, 0, 0, ""⟩ 7 [0] = none ∧
    create_message_data ⟨1, "M", 8, [⟨"Z", 0, 8, 1, '+', 0, 0, 0, 0, ""⟩]⟩ [("Z", 7)] =
      none :=
  c10_zero_factor ⟨"Z", 0, 8, 1, '+', 0, 0, 0, 0, ""⟩ 7 [0]
    ⟨1, "M", 8, [⟨"Z", 0, 8, 1, '+', 0, 0, 0, 0, ""⟩]⟩ [("Z", 7)] rfl (by rfl)
    (List.mem_singleton_self _)

/-- The signal loop of decode_message collects exactly the fitting signals,
in order. -/
theorem decode_message_eq (msg_def : MessageDefinition) (data : List Nat) :
    decode_message msg_def data =
      (msg_def.signals.filter
        (fun s => decide (s.start_bit + s.length ≤ data.length * 8))).map
        (fun s => (s.name, decode_signal s data)) := by
  unfold decode_message
  have hgen : ∀ (l : List SignalDefinition) (acc : List (String × ℚ)),
      l.foldl
        (fun acc signal =>
          if signal.start_bit + signal.length ≤ data.length * 8 then
            acc ++ [(signal.name, decode_signal signal data)]
          else acc)
        acc =
      acc ++ (l.filter (fun s => decide (s.start_bit + s.length ≤ data.length * 8))).map
        (fun s => (s.name, decode_signal s data)) := by
    intro l
    induction l with
    | nil => intro acc; simp
    | cons t ts ih =>
        intro acc
        rw [List.foldl_cons]
        by_cases ht : t.start_bit + t.length ≤ data.length * 8
        · rw [if_pos ht, ih, List.filter_cons, if_pos (by simpa using ht)]
          simp
        · rw [if_neg ht, ih, List.filter_cons, if_neg (by simpa using ht)]
  rw [hgen]
  simp

/-- C6.  Bounds skipping on decode: decode_message decodes exactly those
signals with start_bit + length at most 8 times the buffer length (in loop
order, with no exception possible), and a signal whose bit span exceeds the
buffer is absent from the decoded output (given that signal names within the
message are distinct). -/
theorem c6_bounds_skip (msg_def : MessageDefinition) (data : List Nat) :
    decode_message msg_def data =
      (msg_def.signals.filter
        (fun s => decide (s.start_bit + s.length ≤ data.length * 8))).map
        (fun s => (s.name, decode_signal s data)) ∧
    ∀ s ∈ msg_def.signals, data.length * 8 < s.start_bit + s.length →
      (msg_def.signals.map SignalDefinition.name).Nodup →
      ∀ val : ℚ, (s.name, val) ∉ decode_message msg_def data := by
  refine ⟨decode_message_eq msg_def data, ?_⟩
  intro s hs hlen hnodup val hmem
  rw [decode_message_eq] at hmem
  rcases List.mem_map.mp hmem with ⟨t, htf, hteq⟩
  rcases List.mem_filter.mp htf with ⟨htmem, htcond⟩
  have hname : t.name = s.name := (Prod.ext_iff.mp hteq).1
  have hts : t = s := List.inj_on_of_nodup_map hnodup htmem hs hname
  subst hts
  simp only [decide_eq_true_eq] at htcond
  omega

/-- Witness for C6: a message with one fitting 8-bit signal A and one
out-of-bounds signal B over a 2-byte buffer. -/
theorem c6_bounds_skip_witness :
    (⟨"B", 8, 16, 1, '+', 1, 0, 0, 0, ""⟩ : SignalDefinition).name ∉
      (decode_message
        ⟨2, "M", 2, [⟨"A", 0, 8, 1, '+', 1, 0, 0, 255, ""⟩,
          ⟨"B", 8, 16, 1, '+', 1, 0, 0, 0, ""⟩]⟩ [5, 1]).map Prod.fst := by
  intro hmem
  rcases List.mem_map.mp hmem with ⟨p, hp, hfst⟩
  exact (c6_bounds_skip
      ⟨2, "M", 2, [⟨"A", 0, 8, 1, '+', 1, 0, 0, 255, ""⟩,
        ⟨"B", 8, 16, 1, '+', 1, 0, 0, 0, ""⟩]⟩ [5, 1]).2
    ⟨"B", 8, 16, 1, '+', 1, 0, 0, 0, ""⟩
    (List.mem_cons_of_mem _ (List.mem_cons_self _ _)) (by norm_num) (by simp) p.2
    (by rw [show (("B", p.2) : String × ℚ) = p from Prod.ext hfst.symm rfl]; exact hp)

/-- C7.  Order independence for disjoint signals: encoding two little-endian
signals with disjoint bit spans that fit an 8-byte buffer into the same
zero-filled buffer produces the same final buffer in either encoding order
(including the error outcomes when a factor is zero). -/
theorem c7_commute (s1 s2 : SignalDefinition) (v1 v2 : ℚ)
    (hb1 : s1.byte_order = 1) (hb2 : s2.byte_order = 1)
    (hs1 : s1.start_bit + s1.length ≤ 64) (hs2 : s2.start_bit + s2.length ≤ 64)
    (hdisj : ∀ i, ¬ (s1.start_bit ≤ i ∧ i < s1.start_bit + s1.length ∧
      s2.start_bit ≤ i ∧ i < s2.start_bit + s2.length)) :
    (encode_signal s1 v1 (List.replicate 8 0)).bind (encode_signal s2 v2) =
      (encode_signal s2 v2 (List.replicate 8 0)).bind (encode_signal s1 v1) := by
  by_cases hf1 : s1.factor = 0
  · have e1 : ∀ (w : ℚ) (d : List Nat), encode_signal s1 w d = none := by
      intro w d
      simp only [encode_signal]
      rw [if_pos hf1]
    rw [e1]
    cases h2 : encode_signal s2 v2 (List.replicate 8 0) with
    | none => simp
    | some d => simp [e1]
  · by_cases hf2 : s2.factor = 0
    · have e2 : ∀ (w : ℚ) (d : List Nat), encode_signal s2 w d = none := by
        intro w d
        simp only [encode_signal]
        rw [if_pos hf2]
      rw [e2]
      cases h1 : encode_signal s1 v1 (List.replicate 8 0) with
      | none => simp
      | some d => simp [e2]
    · rw [encode_signal_eq s1 v1 _ hb1 hf1, encode_signal_eq s2 v2 _ hb2 hf2,
        Option.some_bind, Option.some_bind,
        encode_signal_eq s2 v2 _ hb2 hf2, encode_signal_eq s1 v1 _ hb1 hf1]
      congr 1
      have hz : ∀ x ∈ List.replicate 8 (0 : Nat), x < 256 := by
        intro x hx
        rw [List.eq_of_mem_replicate hx]
        norm_num
      apply list_eq_of_getBit_eq
      · rw [encodeLoopN_length, encodeLoopN_length, encodeLoopN_length, encodeLoopN_length]
      · exact encodeLoopN_mem_lt _ _ _ _ _ _ (Nat.mod_lt _ (by norm_num))
          (encodeLoopN_mem_lt _ _ _ _ _ _ (Nat.mod_lt _ (by norm_num)) hz)
      · exact encodeLoopN_mem_lt _ _ _ _ _ _ (Nat.mod_lt _ (by norm_num))
          (encodeLoopN_mem_lt _ _ _ _ _ _ (Nat.mod_lt _ (by norm_num)) hz)
      · intro i
        have hd := hdisj i
        rw [encodeLoopN_getBit_top, encodeLoopN_getBit_top, encodeLoopN_getBit_top,
          encodeLoopN_getBit_top]
        simp only [encodeLoopN_length, List.length_replicate]
        split_ifs <;> first | rfl | (exfalso; omega)

/-- Witness for C2: factor 2 and offset 1 at physical value 6 (quotient 5/2,
floor 2), and the concrete truncation of -3.7. -/
theorem c2_truncation_witness :
    pyInt ((6 - (1 : ℚ)) / 2) = ⌊((6 : ℚ) - 1) / 2⌋ ∧ pyInt (-37/10 : ℚ) = -3 := by
  have h := c2_truncation ⟨"T", 0, 8, 1, '+', 2, 1, 0, 0, ""⟩ 6 (by norm_num)
  exact ⟨h.1 (by norm_num), h.2.2.1.1⟩

/-- Witness for C7: the disjoint 8-bit signals at bits 0..8 and 8..16. -/
theorem c7_commute_witness :
    (encode_signal ⟨"P", 0, 8, 1, '+', 1, 0, 0, 255, ""⟩ 17 (List.replicate 8 0)).bind
        (encode_signal ⟨"Q", 8, 8, 1, '+', 1, 0, 0, 255, ""⟩ 34) =
      (encode_signal ⟨"Q", 8, 8, 1, '+', 1, 0, 0, 255, ""⟩ 34 (List.replicate 8 0)).bind
        (encode_signal ⟨"P", 0, 8, 1, '+', 1, 0, 0, 255, ""⟩ 17) :=
  c7_commute ⟨"P", 0, 8, 1, '+', 1, 0, 0, 255, ""⟩ ⟨"Q", 8, 8, 1, '+', 1, 0, 0, 255, ""⟩
    17 34 rfl rfl (by norm_num) (by norm_num)
    (by
      intro i
      show ¬ ((0 : Nat) ≤ i ∧ i < 0 + 8 ∧ 8 ≤ i ∧ i < 8 + 8)
      omega)

end PcanDecode
